import Mathlib

/-!
Verification of the staff-geometry normalization pipeline of the
`music-scanner` repository, shallowly embedded in Lean 4.

The embedding translates the Python modules
`src/layout/staff_rectifier.py`, `src/layout/staff_detection.py` and
`src/preprocess/normalize.py`.  Machine floats are modelled by `ℚ`
(the relevant staff-tracing arithmetic is exact integer arithmetic up to the
interpolation and smoothing steps), numpy 2-D arrays by `List (List _)` in
row-major order, and Python exceptions by an explicit error type returned
through `Except`.
-/

deriving instance DecidableEq for Except

namespace MusicScanner

/-- The failure kinds raised by the pipeline (Python `ValueError`s,
named as in the specification's error-handling design). -/
inductive OmrErr where
  | maskEmpty
  | insufficientStaffLines
  | unableToTrace
  | invalidInput
  | invalidConfiguration
  | invalidExpectedLines
  deriving DecidableEq, Repr

/-! ## Column-center extraction (`_extract_column_centers`) -/

/-- Python's `round` on a half-integer `n / 2` (banker's rounding, used in
`int(round((s + e) / 2))`): exact halves round to the nearest even integer. -/
def pyRoundHalf (n : Nat) : Nat :=
  if n % 2 = 0 then n / 2
  else if (n / 2) % 2 = 0 then n / 2 else n / 2 + 1

/-- Split a sorted list of pixel indices into maximal runs of consecutive
values, returning `(start, end)` pairs — the segment loop of
`_extract_column_centers`. -/
def segmentsGo (start prev : Nat) : List Nat → List (Nat × Nat)
  | [] => [(start, prev)]
  | v :: rest =>
      if v = prev + 1 then segmentsGo start v rest
      else (start, prev) :: segmentsGo v v rest

/-- Runs of consecutive indices of a `np.flatnonzero` result. -/
def segmentsOfYs : List Nat → List (Nat × Nat)
  | [] => []
  | y :: ys => segmentsGo y y ys

/-- Model of `np.flatnonzero` on a boolean column. -/
def flatnonzero (col : List Bool) : List Nat :=
  (List.range col.length).filter (fun y => col.getD y false)

/-- Model of `_extract_column_centers`: collapse each vertical foreground run to its
(rounded) midpoint. -/
def extractColumnCenters (col : List Bool) : List ℤ :=
  (segmentsOfYs (flatnonzero col)).map (fun se => (pyRoundHalf (se.1 + se.2) : ℤ))

/-! ## Mask access -/

/-- A mask is a list of rows of pixel values (`mask > 0` is foreground). -/
abbrev Mask := List (List Nat)

/-- Width `mask.shape[1]` of a rectangular (numpy) mask. -/
def maskWidth (mask : Mask) : Nat := (mask.headD []).length

/-- The binarised column `binary[:, x]`. -/
def binaryColumn (mask : Mask) (x : Nat) : List Bool :=
  mask.map (fun row => decide (0 < row.getD x 0))

/-- Candidate line centers of column `x`. -/
def columnCenters (mask : Mask) (x : Nat) : List ℤ :=
  extractColumnCenters (binaryColumn mask x)

/-- Check `np.any(binary)`: the mask has at least one foreground pixel. -/
def hasForeground (mask : Mask) : Bool :=
  mask.any (fun row => row.any (fun v => decide (0 < v)))

/-- The mask is a well-formed 2-D array: every row has the common width. -/
def Rectangular (mask : Mask) : Prop :=
  ∀ row ∈ mask, row.length = maskWidth mask

instance (mask : Mask) : Decidable (Rectangular mask) := by
  unfold Rectangular; infer_instance

/-! ## Per-column combinatorial selection -/

/-- Enumeration of `itertools.combinations` in its order. -/
def combosList : Nat → List ℤ → List (List ℤ)
  | 0, _ => [[]]
  | _ + 1, [] => []
  | k + 1, x :: xs => (combosList k xs).map (fun c => x :: c) ++ combosList (k + 1) xs

/-- Python's `sorted` on integers. -/
def sortedAsc (l : List ℤ) : List ℤ := List.insertionSort (· ≤ ·) l

/-- The cost `sum((sorted_combo[i] - previous[i]) ** 2 for i in range(expected_lines))`. -/
def comboCost (p combo : List ℤ) (k : Nat) : ℤ :=
  ((List.range k).map (fun i => (combo.getD i 0 - p.getD i 0) ^ 2)).sum

/-- One step of the best-combination loop: sort the combination, compute its
cost against `previous` (cost `0` when there is no previous column) and keep
it only when the cost strictly improves on the best so far. -/
def selectStep (prev : Option (List ℤ)) (k : Nat)
    (acc : Option (List ℤ × ℤ)) (combo : List ℤ) : Option (List ℤ × ℤ) :=
  let sc := sortedAsc combo
  let cost : ℤ := match prev with
    | some p => comboCost p sc k
    | none => 0
  match acc with
  | none => some (sc, cost)
  | some (b, bc) => if cost < bc then some (sc, cost) else some (b, bc)

/-- The best-combination loop: enumerate `combinations(centers, k)` in order,
keeping the first combination of strictly smallest cost. -/
def selectBest (prev : Option (List ℤ)) (k : Nat) (centers : List ℤ) :
    Option (List ℤ) :=
  ((combosList k centers).foldl (selectStep prev k) none).map Prod.fst

/-- The forward column scan of `compute_staff_line_paths`.  Returns for every
column its assigned positions (`none` = still `NaN`) and the final `previous`.
In the source, the value stored in `line_paths[:, x]` always coincides with the
updated `previous` (fresh selection, or propagated previous, or undefined),
which the scan makes explicit. -/
def phase1 (k : Nat) (prev : Option (List ℤ)) :
    List (List ℤ) → List (Option (List ℤ)) × Option (List ℤ)
  | [] => ([], prev)
  | centers :: rest =>
      let p := if k ≤ centers.length then selectBest prev k centers else prev
      let r := phase1 k p rest
      (p :: r.1, r.2)

/-! ## Gap interpolation (`np.interp`) and smoothing -/

/-- The inner walk of `np.interp` over the remaining sample points, with the
invariant that the query lies strictly right of the previous point `x0`. -/
def interpGo (x x0 f0 : ℚ) : List ℚ → List ℚ → ℚ
  | [], _ => f0
  | _, [] => f0
  | x1 :: xps, f1 :: fps =>
      if x ≤ x1 then f0 + (x - x0) * (f1 - f0) / (x1 - x0)
      else interpGo x x1 f1 xps fps

/-- Model of `np.interp x xp fp` for strictly increasing sample positions `xp`:
clamps to the first/last sample outside the range, linear between samples. -/
def npInterp (x : ℚ) (xp fp : List ℚ) : ℚ :=
  match xp, fp with
  | [], _ => 0
  | _, [] => 0
  | x0 :: xps, f0 :: fps => if x ≤ x0 then f0 else interpGo x x0 f0 xps fps

/-- The columns `valid_x` assigned a value by the forward scan (the
definedness of a column does not depend on the line index). -/
def validCols (w : Nat) (cols : List (Option (List ℤ))) : List Nat :=
  (List.range w).filter (fun x => (cols.getD x none).isSome)

/-- The values `valid_y` for line `i`. -/
def validVals (w : Nat) (cols : List (Option (List ℤ))) (i : Nat) : List ℚ :=
  (validCols w cols).map (fun x => (((cols.getD x none).getD []).getD i 0 : ℚ))

/-- Fill one line's row by `np.interp` over its defined columns
(the body of the per-line loop of `compute_staff_line_paths`); `none` when the
row has no defined column (the `Unable to trace staff line` branch). -/
def interpRow (w : Nat) (cols : List (Option (List ℤ))) (i : Nat) :
    Option (List ℚ) :=
  if (validCols w cols).isEmpty then none
  else
    some ((List.range w).map
      (fun x : Nat => npInterp (x : ℚ)
        ((validCols w cols).map (fun v : Nat => (v : ℚ)))
        (validVals w cols i)))

/-- Model of `_smooth_curve`: centered moving average of odd width (an even `window` is
reduced by one), with edge padding.  `padded[j + t]` reads the curve at the
index `j + t - radius` clamped into range, which the `min`/truncated
subtraction below reproduce. -/
def smoothCurve (curve : List ℚ) (window : Nat) : List ℚ :=
  if window ≤ 1 then curve
  else
    let w := window - (if window % 2 = 0 then 1 else 0)
    let r := w / 2
    (List.range curve.length).map (fun j =>
      (((List.range w).map
        (fun t => curve.getD (min (curve.length - 1) (j + t - r)) 0)).sum) / (w : ℚ))

/-! ## `compute_staff_line_paths` -/

/-- The list `centers_by_column`. -/
def centersByColumn (mask : Mask) : List (List ℤ) :=
  (List.range (maskWidth mask)).map (fun x => columnCenters mask x)

/-- The per-row results of the gap-filling loop of `compute_staff_line_paths`
(rows `0 .. expected_lines-1` interpolated over the columns assigned by the
forward scan). -/
def interpolatedRows (mask : Mask) (expected_lines : Nat) :
    List (Option (List ℚ)) :=
  (List.range expected_lines).map
    (fun i => interpRow (maskWidth mask)
      (phase1 expected_lines none (centersByColumn mask)).1 i)

/-- Model of `compute_staff_line_paths` (the non-2-D-input guard is carried by the
`Rectangular` hypotheses of the theorems; a `List (List _)` mask is indexed
exactly like the numpy array when rectangular). -/
def computeStaffLinePaths (mask : Mask) (expected_lines smoothing_window : Nat) :
    Except OmrErr (List (List ℚ)) :=
  if hasForeground mask = false then .error .maskEmpty
  else if expected_lines = 0 then .error .invalidExpectedLines
  else if (centersByColumn mask).any (fun c => !c.isEmpty) = false then
    .error .maskEmpty
  else
    match (phase1 expected_lines none (centersByColumn mask)).2 with
    | none => .error .insufficientStaffLines
    | some _ =>
        if (interpolatedRows mask expected_lines).any (fun r => r.isNone) then
          .error .unableToTrace
        else if 1 < smoothing_window then
          .ok (((interpolatedRows mask expected_lines).map (fun r => r.getD [])).map
                (fun r => smoothCurve r smoothing_window))
        else
          .ok ((interpolatedRows mask expected_lines).map (fun r => r.getD []))

/-! ## `compute_staff_reference` and `rectify_staff_region` -/

/-- Model of `np.median`: sort, take the middle element (odd length) or the mean of the
two middle elements (even length).  numpy yields `NaN` on an empty input; the
value `0` returned here is never relied upon — every theorem touching the
median supplies a nonempty list. -/
def npMedian (l : List ℚ) : ℚ :=
  let s := List.insertionSort (· ≤ ·) l
  let n := l.length
  if n = 0 then 0
  else if n % 2 = 1 then s.getD (n / 2) 0
  else (s.getD (n / 2 - 1) 0 + s.getD (n / 2) 0) / 2

/-- The `StaffReference` dataclass. -/
structure StaffReference where
  canonical_positions : List ℚ
  line_spacing : ℚ
  deriving DecidableEq, Repr

/-- The `spacing_samples` accumulation of `compute_staff_reference`:
for each adjacent line pair, the absolute per-column gaps, concatenated. -/
def spacingSamples (line_paths : List (List ℚ)) : List ℚ :=
  (List.range (line_paths.length - 1)).flatMap
    (fun idx => List.zipWith (fun a b => |b - a|)
      (line_paths.getD idx []) (line_paths.getD (idx + 1) []))

/-- Model of `compute_staff_reference`. -/
def computeStaffReference (line_paths : List (List ℚ)) :
    Except OmrErr StaffReference :=
  if line_paths.length < 2 then .error .invalidInput
  else
    let line_spacing := npMedian (spacingSamples line_paths)
    let first_line := npMedian (line_paths.getD 0 [])
    .ok { canonical_positions :=
            (List.range line_paths.length).map
              (fun i : Nat => first_line + (i : ℚ) * line_spacing),
          line_spacing := line_spacing }

/-- The failure behaviour and returned reference of `rectify_staff_region`:
trace, then build the reference.  The subsequent remap construction and
`cv2.remap` resampling are total and produce the warped image, which no claim
inspects. -/
def rectifyStaffRegionRef (mask : Mask) (expected_lines smoothing_window : Nat) :
    Except OmrErr StaffReference :=
  match computeStaffLinePaths mask expected_lines smoothing_window with
  | .error e => .error e
  | .ok line_paths => computeStaffReference line_paths

/-! ## Staff region grouping (`staff_detection.py`) -/

/-- The `StaffRegion` dataclass. -/
structure StaffRegion where
  top : ℤ
  bottom : ℤ
  left : ℤ
  right : ℤ
  deriving DecidableEq, Repr

/-- Default region used only to totalise list access (never observed: every
system built by the grouping loop is nonempty). -/
def dummyRegion : StaffRegion := ⟨0, 0, 0, 0⟩

/-- The greedy accumulation loop of `group_staff_regions`: `current` is the
system being grown and `prev` its last element, threaded explicitly. -/
def groupGo (gap : ℤ) (current : List StaffRegion) (prev : StaffRegion) :
    List StaffRegion → List (List StaffRegion)
  | [] => [current]
  | r :: rest =>
      if r.top - prev.bottom ≤ gap then groupGo gap (current ++ [r]) r rest
      else current :: groupGo gap [r] r rest

/-- Model of `group_staff_regions`: sort by `top` (stable, like Python's `sorted`) and
greedily split into systems at gaps exceeding `max_vertical_gap`. -/
def groupStaffRegions (regions : List StaffRegion) (max_vertical_gap : ℤ) :
    List (List StaffRegion) :=
  match List.insertionSort (fun a b => a.top ≤ b.top) regions with
  | [] => []
  | first :: rest => groupGo max_vertical_gap [first] first rest

/-! ## Preprocessing (`normalize.py`) -/

/-- An image buffer: rows of pixel values (channels abstracted away; only
dimensions and value equality matter to the claims). -/
abbrev Img := List (List Nat)

/-- Height `image.shape[0]`. -/
def imgHeight (img : Img) : Nat := img.length

/-- Width `image.shape[1]`. -/
def imgWidth (img : Img) : Nat := (img.headD []).length

/-- Python's `round` on a rational (banker's rounding: halves to even). -/
def pyRound (q : ℚ) : ℤ :=
  if q - ⌊q⌋ < 1 / 2 then ⌊q⌋
  else if (1 : ℚ) / 2 < q - ⌊q⌋ then ⌊q⌋ + 1
  else if ⌊q⌋ % 2 = 0 then ⌊q⌋ else ⌊q⌋ + 1

/-- Model of `cv2.resize`, captured only through its output shape: the resampled pixel
values are external library behaviour that no claim inspects. -/
def resizeModel (newW newH : Nat) : Img :=
  List.replicate newH (List.replicate newW 0)

/-- Model of `normalize_image_dpi` (value level: the equal-DPI branch returns a buffer
value-identical to the input; the copy-versus-alias distinction is modelled by
`normalizeImageDpiAlloc` below). -/
def normalizeImageDpi (image : Img) (current_dpi target_dpi : ℤ) :
    Except OmrErr Img :=
  if current_dpi ≤ 0 then .error .invalidConfiguration
  else if target_dpi ≤ 0 then .error .invalidConfiguration
  else if target_dpi = current_dpi then .ok image
  else
    let scale : ℚ := (target_dpi : ℚ) / (current_dpi : ℚ)
    let new_width := max 1 (pyRound ((imgWidth image : ℚ) * scale)).toNat
    let new_height := max 1 (pyRound ((imgHeight image : ℚ) * scale)).toNat
    .ok (resizeModel new_width new_height)

/-- A store of allocated numpy buffers; an ndarray reference is an index. -/
abbrev Store := List Img

/-- Model of `normalize_image_dpi` at the allocation level: both `image.copy()` and
`cv2.resize` allocate a fresh buffer, so the function never returns the input
reference. -/
def normalizeImageDpiAlloc (store : Store) (r : Nat)
    (current_dpi target_dpi : ℤ) : Except OmrErr (Store × Nat) :=
  if current_dpi ≤ 0 then .error .invalidConfiguration
  else if target_dpi ≤ 0 then .error .invalidConfiguration
  else
    let image := store.getD r []
    if target_dpi = current_dpi then .ok (store ++ [image], store.length)
    else
      let scale : ℚ := (target_dpi : ℚ) / (current_dpi : ℚ)
      let new_width := max 1 (pyRound ((imgWidth image : ℚ) * scale)).toNat
      let new_height := max 1 (pyRound ((imgHeight image : ℚ) * scale)).toNat
      .ok (store ++ [resizeModel new_width new_height], store.length)

/-- The `PreprocessConfig` dataclass.  It is a plain container: constructing it
performs no validation (the source has no `__post_init__`). -/
structure PreprocessConfig where
  target_dpi : ℤ := 300
  denoise_strength : ℚ := 10
  adaptive_block_size : ℤ := 35
  adaptive_c : ℤ := 10

/-- Model of `adaptive_binarize`, parameterised by the external `cv2.adaptiveThreshold`
transform (total once the parity guard passes). -/
def adaptiveBinarize (threshF : Img → Img) (image : Img) (block_size c : ℤ) :
    Except OmrErr Img :=
  if block_size % 2 = 0 then .error .invalidConfiguration
  else .ok (threshF image)

/-- The stages of `preprocess_pipeline`, in execution order. -/
inductive Stage where
  | normalizeDpi
  | deskew
  | denoise
  | illumination
  | binarize
  deriving DecidableEq, Repr

/-- Model of `preprocess_pipeline`, parameterised by the external OpenCV stage
transforms (`deskew_image`, `denoise_image`, `correct_illumination`,
`cv2.adaptiveThreshold`), each a total function on buffers.  Alongside the
result it records which stages completed on the image, so that statements
about processing happening before a failure can be made. -/
def preprocessPipeline (deskewF denoiseF illumF threshF : Img → Img)
    (image : Img) (config : PreprocessConfig) :
    List Stage × Except OmrErr Img :=
  match normalizeImageDpi image config.target_dpi config.target_dpi with
  | .error e => ([], .error e)
  | .ok normalized =>
      let deskewed := deskewF normalized
      let denoised := denoiseF deskewed
      let illumination := illumF denoised
      match adaptiveBinarize threshF illumination
              config.adaptive_block_size config.adaptive_c with
      | .error e =>
          ([.normalizeDpi, .deskew, .denoise, .illumination], .error e)
      | .ok binarized =>
          ([.normalizeDpi, .deskew, .denoise, .illumination, .binarize],
            .ok binarized)

/-! ## General list helpers -/

theorem getD_map_range {α : Type _} (f : Nat → α) (k i : Nat) (d : α)
    (h : i < k) : ((List.range k).map f).getD i d = f i := by
  rw [List.getD_eq_getElem?_getD, List.getElem?_eq_getElem (by simpa using h)]
  simp

theorem headD_replicate {α : Type _} (n : Nat) (a b : α) (h : 0 < n) :
    (List.replicate n a).headD b = a := by
  cases n with
  | zero => omega
  | succ m => simp [List.replicate]

end MusicScanner

namespace MusicScanner

/-! ## Claim theorems: preprocessing -/

/-- C7: for every image and every even `block_size`, `adaptive_binarize`
fails with `InvalidConfiguration` (the parity guard fires before the external
threshold call, for any total threshold transform). -/
theorem adaptive_binarize_even_fails
    (threshF : Img → Img) (image : Img) (block_size c : ℤ)
    (heven : block_size % 2 = 0) :
    adaptiveBinarize threshF image block_size c =
      .error .invalidConfiguration := by
  simp [adaptiveBinarize, heven]

theorem adaptive_binarize_even_fails_witness :
    (2 : ℤ) % 2 = 0 ∧
      adaptiveBinarize id [[5]] 2 10 = .error .invalidConfiguration :=
  ⟨by decide, adaptive_binarize_even_fails id [[5]] 2 10 (by decide)⟩

/-- C5: `normalize_image_dpi` fails with `InvalidConfiguration` exactly when a
DPI value is ≤ 0; with equal DPIs it returns a buffer with the input's
dimensions and content, allocated fresh (a copy, not an alias of the input
reference); otherwise each output dimension is
`max 1 (round (dimension * target/current))`. -/
theorem normalize_image_dpi_spec :
    (∀ (image : Img) (c t : ℤ),
        normalizeImageDpi image c t = .error .invalidConfiguration ↔
          c ≤ 0 ∨ t ≤ 0)
    ∧ (∀ (image : Img) (d : ℤ), 0 < d → normalizeImageDpi image d d = .ok image)
    ∧ (∀ (store : Store) (r : Nat) (d : ℤ), 0 < d → r < store.length →
        normalizeImageDpiAlloc store r d d =
            .ok (store ++ [store.getD r []], store.length)
          ∧ store.length ≠ r
          ∧ (store ++ [store.getD r []]).getD store.length [] = store.getD r [])
    ∧ (∀ (image : Img) (c t : ℤ), 0 < c → 0 < t → t ≠ c →
        ∃ out, normalizeImageDpi image c t = .ok out
          ∧ imgWidth out =
              max 1 (pyRound ((imgWidth image : ℚ) * ((t : ℚ) / (c : ℚ)))).toNat
          ∧ imgHeight out =
              max 1 (pyRound ((imgHeight image : ℚ) * ((t : ℚ) / (c : ℚ)))).toNat) := by
  refine ⟨?_, ?_, ?_, ?_⟩
  · intro image c t
    unfold normalizeImageDpi
    split_ifs with h1 h2 <;> simp <;> omega
  · intro image d hd
    unfold normalizeImageDpi
    split_ifs with h1 h2 <;> first | rfl | omega
  · intro store r d hd hr
    refine ⟨?_, by omega, ?_⟩
    · unfold normalizeImageDpiAlloc
      split_ifs with h1 h2 <;> first | rfl | omega
    · rw [List.getD_eq_getElem?_getD, List.getElem?_append_right (le_refl _)]
      simp
  · intro image c t hc ht hne
    refine ⟨resizeModel
      (max 1 (pyRound ((imgWidth image : ℚ) * ((t : ℚ) / (c : ℚ)))).toNat)
      (max 1 (pyRound ((imgHeight image : ℚ) * ((t : ℚ) / (c : ℚ)))).toNat),
      ?_, ?_, ?_⟩
    · unfold normalizeImageDpi
      split_ifs with h1 h2 <;> first | rfl | omega
    · unfold imgWidth resizeModel
      rw [headD_replicate _ _ _ (by omega)]
      simp
    · unfold imgHeight resizeModel
      simp

theorem normalize_image_dpi_spec_witness :
    (normalizeImageDpi [[1, 2], [3, 4]] 0 300 = .error .invalidConfiguration ↔
        (0 : ℤ) ≤ 0 ∨ (300 : ℤ) ≤ 0)
    ∧ normalizeImageDpi [[1, 2], [3, 4]] 72 72 = .ok [[1, 2], [3, 4]]
    ∧ (normalizeImageDpiAlloc [[[7]], [[8, 9]]] 1 300 300 =
          .ok ([[[7]], [[8, 9]], [[8, 9]]], 2)
        ∧ (2 : Nat) ≠ 1
        ∧ ([[[7]], [[8, 9]], [[8, 9]]] : Store).getD 2 [] =
            ([[[7]], [[8, 9]]] : Store).getD 1 [])
    ∧ (∃ out, normalizeImageDpi [[1, 2], [3, 4]] 72 144 = .ok out
        ∧ imgWidth out =
            max 1 (pyRound ((imgWidth [[1, 2], [3, 4]] : ℚ) *
              ((144 : ℚ) / (72 : ℚ)))).toNat
        ∧ imgHeight out =
            max 1 (pyRound ((imgHeight [[1, 2], [3, 4]] : ℚ) *
              ((144 : ℚ) / (72 : ℚ)))).toNat) :=
  ⟨normalize_image_dpi_spec.1 [[1, 2], [3, 4]] 0 300,
   normalize_image_dpi_spec.2.1 [[1, 2], [3, 4]] 72 (by decide),
   by
    have h := normalize_image_dpi_spec.2.2.1 [[[7]], [[8, 9]]] 1 300 (by decide)
      (by decide)
    simpa using h,
   normalize_image_dpi_spec.2.2.2 [[1, 2], [3, 4]] 72 144 (by decide) (by decide)
     (by decide)⟩

/-- C6 counterexample: a configuration with an even `adaptive_block_size` is
constructed without any validation error, and when the pipeline runs on it,
four processing stages (DPI normalization, deskew, denoise, illumination)
complete on the image before the failure is raised at the binarization stage —
contradicting "fails validation before any processing begins". -/
theorem preprocess_even_block_cex :
    (preprocessPipeline id id id id [[5]] ⟨300, 10, 2, 10⟩).2 =
        .error .invalidConfiguration
    ∧ (preprocessPipeline id id id id [[5]] ⟨300, 10, 2, 10⟩).1 =
        [.normalizeDpi, .deskew, .denoise, .illumination] := by
  constructor <;> rfl

/-- C6 (amended): `PreprocessConfig` performs no validation at construction;
a non-odd `adaptive_block_size` only fails (with `InvalidConfiguration`) when
the pipeline reaches the binarization stage, after the DPI-normalization,
deskew, denoise and illumination stages have already run on the image. -/
theorem preprocess_even_block_fails_after_stages
    (deskewF denoiseF illumF threshF : Img → Img) (image : Img)
    (config : PreprocessConfig)
    (heven : config.adaptive_block_size % 2 = 0)
    (hdpi : 0 < config.target_dpi) :
    preprocessPipeline deskewF denoiseF illumF threshF image config =
      ([.normalizeDpi, .deskew, .denoise, .illumination],
        .error .invalidConfiguration) := by
  unfold preprocessPipeline normalizeImageDpi adaptiveBinarize
  split_ifs with h1 h2 <;> first | omega | simp [heven]

theorem preprocess_even_block_fails_after_stages_witness :
    ((⟨300, 10, 2, 10⟩ : PreprocessConfig).adaptive_block_size % 2 = 0
      ∧ 0 < (⟨300, 10, 2, 10⟩ : PreprocessConfig).target_dpi)
    ∧ preprocessPipeline id id id id [[5]] ⟨300, 10, 2, 10⟩ =
        ([.normalizeDpi, .deskew, .denoise, .illumination],
          .error .invalidConfiguration) :=
  ⟨⟨by decide, by decide⟩,
   preprocess_even_block_fails_after_stages id id id id [[5]] _
     (by decide) (by decide)⟩

/-! ## Claim theorems: staff-region grouping -/

instance : IsTotal StaffRegion (fun a b => a.top ≤ b.top) :=
  ⟨fun a b => le_total a.top b.top⟩

instance : IsTrans StaffRegion (fun a b => a.top ≤ b.top) :=
  ⟨fun _ _ _ hab hbc => le_trans hab hbc⟩

/-- The within-system invariant. -/
def withinSystem (g : ℤ) (a b : StaffRegion) : Prop :=
  a.top ≤ b.top ∧ b.top - a.bottom ≤ g

/-- The between-systems separation. -/
def betweenSystems (g : ℤ) (s1 s2 : List StaffRegion) : Prop :=
  g < (s2.headD dummyRegion).top - (s1.getLastD dummyRegion).bottom

instance (g : ℤ) (a b : StaffRegion) : Decidable (withinSystem g a b) := by
  unfold withinSystem; infer_instance

instance (g : ℤ) (s1 s2 : List StaffRegion) : Decidable (betweenSystems g s1 s2) := by
  unfold betweenSystems; infer_instance

theorem groupGo_head_structure (g : ℤ) :
    ∀ (l current : List StaffRegion) (prev : StaffRegion),
      ∃ t, groupGo g current prev l = (current ++ t) :: (groupGo g current prev l).tail := by
  intro l
  induction l with
  | nil => intro current prev; exact ⟨[], by simp [groupGo]⟩
  | cons r rest ih =>
      intro current prev
      unfold groupGo
      split_ifs with hgap
      · obtain ⟨t, ht⟩ := ih (current ++ [r]) r
        exact ⟨[r] ++ t, by rw [ht]; simp⟩
      · exact ⟨[], by simp⟩

theorem groupGo_spec (g : ℤ) :
    ∀ (l current : List StaffRegion) (prev : StaffRegion),
      current ≠ [] →
      current.getLast? = some prev →
      current.Chain' (withinSystem g) →
      (prev :: l).Chain' (fun a b => a.top ≤ b.top) →
      (∀ sys ∈ groupGo g current prev l,
          sys ≠ [] ∧ sys.Chain' (withinSystem g))
        ∧ (groupGo g current prev l).Chain' (betweenSystems g) := by
  intro l
  induction l with
  | nil =>
      intro current prev hne _ hchain _
      refine ⟨?_, ?_⟩
      · intro sys hsys
        simp only [groupGo, List.mem_singleton] at hsys
        exact hsys ▸ ⟨hne, hchain⟩
      · simp [groupGo]
  | cons r rest ih =>
      intro current prev hne hlast hchain hsorted
      have hpr : prev.top ≤ r.top := (List.chain'_cons'.mp hsorted).1 r rfl
      have hsorted' : (r :: rest).Chain' (fun a b => a.top ≤ b.top) :=
        (List.chain'_cons'.mp hsorted).2
      unfold groupGo
      split_ifs with hgap
      · -- append r to the current system
        refine ih (current ++ [r]) r (by simp) (by simp) ?_ hsorted'
        rw [List.chain'_append]
        refine ⟨hchain, List.chain'_singleton r, ?_⟩
        intro x hx y hy
        simp only [hlast, Option.mem_def, Option.some.injEq] at hx
        simp only [List.head?_cons, Option.mem_def, Option.some.injEq] at hy
        exact hx ▸ hy ▸ ⟨hpr, hgap⟩
      · -- close the current system, start a new one at r
        have hrec := ih [r] r (by simp) (by simp) (List.chain'_singleton r) hsorted'
        refine ⟨?_, ?_⟩
        · intro sys hsys
          rcases List.mem_cons.mp hsys with h | h
          · exact h ▸ ⟨hne, hchain⟩
          · exact hrec.1 sys h
        · rw [List.chain'_cons']
          refine ⟨?_, hrec.2⟩
          intro s2 hs2
          obtain ⟨t, ht⟩ := groupGo_head_structure g rest [r] r
          rw [ht] at hs2
          simp only [List.head?_cons, Option.mem_def, Option.some.injEq] at hs2
          subst hs2
          unfold betweenSystems
          rw [List.getLastD_eq_getLast?, hlast]
          simp only [List.cons_append, List.headD_cons, Option.getD_some]
          omega

/-- C8: `group_staff_regions` returns `[]` on empty input; every returned
system is a nonempty run of regions sorted by `top` whose consecutive
`bottom → next top` gaps are at most `max_vertical_gap`; and consecutive
systems are separated by a gap strictly greater than `max_vertical_gap`. -/
theorem group_staff_regions_spec :
    (∀ g : ℤ, groupStaffRegions [] g = [])
    ∧ (∀ (regions : List StaffRegion) (g : ℤ),
        ∀ sys ∈ groupStaffRegions regions g,
          sys ≠ [] ∧ sys.Chain' (withinSystem g))
    ∧ (∀ (regions : List StaffRegion) (g : ℤ),
        (groupStaffRegions regions g).Chain' (betweenSystems g)) := by
  have main : ∀ (regions : List StaffRegion) (g : ℤ),
      (∀ sys ∈ groupStaffRegions regions g,
        sys ≠ [] ∧ sys.Chain' (withinSystem g))
      ∧ (groupStaffRegions regions g).Chain' (betweenSystems g) := by
    intro regions g
    have hsorted : (List.insertionSort (fun a b => a.top ≤ b.top) regions).Sorted
        (fun a b => a.top ≤ b.top) :=
      List.sorted_insertionSort _ regions
    unfold groupStaffRegions
    cases hs : List.insertionSort (fun a b => a.top ≤ b.top) regions with
    | nil => simp
    | cons first rest =>
        rw [hs] at hsorted
        exact groupGo_spec g rest [first] first (by simp) (by simp)
          (List.chain'_singleton first) hsorted.chain'
  exact ⟨fun g => rfl, fun regions g => (main regions g).1,
    fun regions g => (main regions g).2⟩

theorem group_staff_regions_spec_witness :
    groupStaffRegions [] 5 = []
    ∧ ([⟨0, 10, 0, 1⟩] ≠ ([] : List StaffRegion)
        ∧ [(⟨0, 10, 0, 1⟩ : StaffRegion)].Chain' (withinSystem 5))
    ∧ (groupStaffRegions [⟨50, 60, 0, 1⟩, ⟨0, 10, 0, 1⟩, ⟨12, 20, 0, 1⟩] 5).Chain'
        (betweenSystems 5) :=
  ⟨group_staff_regions_spec.1 5,
   group_staff_regions_spec.2.1 [⟨0, 10, 0, 1⟩, ⟨50, 60, 0, 1⟩] 5
     [⟨0, 10, 0, 1⟩] (by decide),
   group_staff_regions_spec.2.2 [⟨50, 60, 0, 1⟩, ⟨0, 10, 0, 1⟩, ⟨12, 20, 0, 1⟩] 5⟩

end MusicScanner

namespace MusicScanner

/-! ## Properties of the combination enumeration and best-choice fold -/

/-- A selected vector is ascending and has the expected number of entries. -/
def SortedK (k : Nat) (b : List ℤ) : Prop :=
  b.Sorted (· ≤ ·) ∧ b.length = k

theorem sortedAsc_sorted (l : List ℤ) : (sortedAsc l).Sorted (· ≤ ·) :=
  List.sorted_insertionSort _ l

theorem sortedAsc_length (l : List ℤ) : (sortedAsc l).length = l.length :=
  List.length_insertionSort _ l

theorem combosList_length :
    ∀ (l : List ℤ) (k : Nat), ∀ c ∈ combosList k l, c.length = k := by
  intro l
  induction l with
  | nil =>
      intro k c hc
      cases k with
      | zero => simp only [combosList, List.mem_singleton] at hc; simp [hc]
      | succ m => simp [combosList] at hc
  | cons x xs ih =>
      intro k c hc
      cases k with
      | zero => simp only [combosList, List.mem_singleton] at hc; simp [hc]
      | succ m =>
          simp only [combosList, List.mem_append, List.mem_map] at hc
          rcases hc with ⟨c', hc', rfl⟩ | hc
          · simp [ih m c' hc']
          · exact ih (m + 1) c hc

theorem combosList_ne_nil :
    ∀ (l : List ℤ) (k : Nat), k ≤ l.length → combosList k l ≠ [] := by
  intro l
  induction l with
  | nil =>
      intro k hk
      cases k with
      | zero => simp [combosList]
      | succ m => simp at hk
  | cons x xs ih =>
      intro k hk
      cases k with
      | zero => simp [combosList]
      | succ m =>
          have := ih m (by simpa using hk)
          simp only [combosList, ne_eq, List.append_eq_nil, List.map_eq_nil_iff,
            not_and]
          intro h
          exact absurd h this

theorem selectStep_isSome (prev : Option (List ℤ)) (k : Nat)
    (acc : Option (List ℤ × ℤ)) (combo : List ℤ) :
    (selectStep prev k acc combo).isSome := by
  unfold selectStep
  cases acc with
  | none => simp
  | some b =>
      obtain ⟨b, bc⟩ := b
      simp only
      split <;> simp

theorem foldl_selectStep_isSome (prev : Option (List ℤ)) (k : Nat) :
    ∀ (l : List (List ℤ)) (acc : Option (List ℤ × ℤ)), acc.isSome →
      (l.foldl (selectStep prev k) acc).isSome := by
  intro l
  induction l with
  | nil => intro acc h; simpa using h
  | cons c rest ih =>
      intro acc _
      exact ih _ (selectStep_isSome prev k acc c)

theorem selectBest_isSome (prev : Option (List ℤ)) (k : Nat) (centers : List ℤ)
    (hk : k ≤ centers.length) : (selectBest prev k centers).isSome := by
  have h : ((combosList k centers).foldl (selectStep prev k) none).isSome := by
    cases hc : combosList k centers with
    | nil => exact absurd hc (combosList_ne_nil centers k hk)
    | cons c rest =>
        simp only [List.foldl_cons]
        exact foldl_selectStep_isSome prev k rest _ (selectStep_isSome prev k none c)
  obtain ⟨p, hp⟩ := Option.isSome_iff_exists.mp h
  simp [selectBest, hp]

theorem foldl_selectStep_SortedK (prev : Option (List ℤ)) (k : Nat) :
    ∀ (l : List (List ℤ)) (acc : Option (List ℤ × ℤ)),
      (∀ c ∈ l, c.length = k) →
      (∀ b bc, acc = some (b, bc) → SortedK k b) →
      ∀ b bc, l.foldl (selectStep prev k) acc = some (b, bc) → SortedK k b := by
  intro l
  induction l with
  | nil =>
      intro acc _ hacc b bc h
      exact hacc b bc (by simpa using h)
  | cons c rest ih =>
      intro acc hlen hacc b bc h
      simp only [List.foldl_cons] at h
      refine ih _ (fun c' hc' => hlen c' (List.mem_cons_of_mem _ hc')) ?_ b bc h
      intro b' bc' hstep
      have hQ : SortedK k (sortedAsc c) :=
        ⟨sortedAsc_sorted c, (sortedAsc_length c).trans (hlen c (List.mem_cons_self c rest))⟩
      unfold selectStep at hstep
      cases hacc' : acc with
      | none =>
          rw [hacc'] at hstep
          simp only [Option.some.injEq, Prod.mk.injEq] at hstep
          exact hstep.1 ▸ hQ
      | some p =>
          obtain ⟨b0, bc0⟩ := p
          rw [hacc'] at hstep
          simp only at hstep
          split at hstep <;>
            simp only [Option.some.injEq, Prod.mk.injEq] at hstep
          · exact hstep.1 ▸ hQ
          · exact hstep.1 ▸ hacc b0 bc0 hacc'

theorem selectBest_SortedK (prev : Option (List ℤ)) (k : Nat) (centers : List ℤ)
    (b : List ℤ) (h : selectBest prev k centers = some b) : SortedK k b := by
  unfold selectBest at h
  rw [Option.map_eq_some'] at h
  obtain ⟨⟨b', bc⟩, hfold, rfl⟩ := h
  exact foldl_selectStep_SortedK prev k (combosList k centers) none
    (fun c hc => combosList_length centers k c hc) (by simp) b' bc hfold

/-! ## Properties of the forward scan -/

theorem phase1_fst_length (k : Nat) :
    ∀ (l : List (List ℤ)) (prev : Option (List ℤ)),
      (phase1 k prev l).1.length = l.length := by
  intro l
  induction l with
  | nil => intro prev; rfl
  | cons c rest ih => intro prev; simp [phase1, ih]

theorem phase1_fst_last (k : Nat) :
    ∀ (l : List (List ℤ)) (prev : Option (List ℤ)), l ≠ [] →
      (phase1 k prev l).1.getLast? = some (phase1 k prev l).2 := by
  intro l
  induction l with
  | nil => intro prev h; exact absurd rfl h
  | cons c rest ih =>
      intro prev _
      by_cases hrest : rest = []
      · subst hrest; simp [phase1]
      · have hrec := ih (if k ≤ c.length then selectBest prev k c else prev) hrest
        simp only [phase1]
        cases hp1 : (phase1 k (if k ≤ c.length then selectBest prev k c else prev)
            rest).1 with
        | nil =>
            have hl := phase1_fst_length k rest
              (if k ≤ c.length then selectBest prev k c else prev)
            rw [hp1] at hl
            exact absurd (List.length_eq_zero.mp hl.symm) hrest
        | cons o t =>
            rw [List.getLast?_cons_cons, ← hp1, hrec]

theorem phase1_snd_isSome_mono (k : Nat) :
    ∀ (l : List (List ℤ)) (prev : Option (List ℤ)), prev.isSome →
      ((phase1 k prev l).2).isSome := by
  intro l
  induction l with
  | nil => intro prev h; exact h
  | cons c rest ih =>
      intro prev h
      simp only [phase1]
      refine ih _ ?_
      split
      · exact selectBest_isSome prev k c (by omega)
      · exact h

theorem phase1_snd_isSome_of_anchor (k : Nat) :
    ∀ (l : List (List ℤ)) (prev : Option (List ℤ)),
      (∃ c ∈ l, k ≤ c.length) → ((phase1 k prev l).2).isSome := by
  intro l
  induction l with
  | nil => intro prev h; simp at h
  | cons c rest ih =>
      intro prev ⟨c', hc', hk⟩
      simp only [phase1]
      rcases List.mem_cons.mp hc' with rfl | hmem
      · refine phase1_snd_isSome_mono k rest _ ?_
        rw [if_pos hk]
        exact selectBest_isSome prev k c' hk
      · exact ih _ ⟨c', hmem, hk⟩

theorem phase1_snd_of_no_anchor (k : Nat) :
    ∀ (l : List (List ℤ)) (prev : Option (List ℤ)),
      (∀ c ∈ l, c.length < k) → (phase1 k prev l).2 = prev := by
  intro l
  induction l with
  | nil => intro prev _; rfl
  | cons c rest ih =>
      intro prev h
      simp only [phase1]
      rw [if_neg (by have := h c (List.mem_cons_self c rest); omega)]
      exact ih prev (fun c' hc' => h c' (List.mem_cons_of_mem _ hc'))

theorem phase1_inv_SortedK (k : Nat) :
    ∀ (l : List (List ℤ)) (prev : Option (List ℤ)),
      (∀ b, prev = some b → SortedK k b) →
      (∀ o ∈ (phase1 k prev l).1, ∀ b, o = some b → SortedK k b)
        ∧ (∀ b, (phase1 k prev l).2 = some b → SortedK k b) := by
  intro l
  induction l with
  | nil =>
      intro prev hprev
      exact ⟨by simp [phase1], hprev⟩
  | cons c rest ih =>
      intro prev hprev
      have hp : ∀ b, (if k ≤ c.length then selectBest prev k c else prev) = some b →
          SortedK k b := by
        intro b hb
        split at hb
        · exact selectBest_SortedK prev k c b hb
        · exact hprev b hb
      have hrec := ih _ hp
      refine ⟨?_, hrec.2⟩
      intro o ho
      simp only [phase1, List.mem_cons] at ho
      rcases ho with rfl | ho
      · exact hp
      · exact hrec.1 o ho

/-! ## Linking foreground pixels, columns and candidate centers -/

theorem segmentsGo_ne_nil (ys : List Nat) :
    ∀ start prev, segmentsGo start prev ys ≠ [] := by
  induction ys with
  | nil => intro start prev; simp [segmentsGo]
  | cons v rest ih =>
      intro start prev
      unfold segmentsGo
      split_ifs
      · exact ih start v
      · simp

theorem extractColumnCenters_ne_nil_iff (col : List Bool) :
    extractColumnCenters col ≠ [] ↔ flatnonzero col ≠ [] := by
  unfold extractColumnCenters
  cases h : flatnonzero col with
  | nil => simp [h, segmentsOfYs]
  | cons y ys => simp [segmentsOfYs, segmentsGo_ne_nil ys y y]

theorem flatnonzero_mem_iff (col : List Bool) (y : Nat) :
    y ∈ flatnonzero col ↔ y < col.length ∧ col.getD y false = true := by
  unfold flatnonzero
  rw [List.mem_filter, List.mem_range]

/-- A candidate center in some column forces a foreground pixel in the mask. -/
theorem hasForeground_of_centers (mask : Mask) (x : Nat)
    (h : columnCenters mask x ≠ []) : hasForeground mask = true := by
  rw [columnCenters, extractColumnCenters_ne_nil_iff] at h
  obtain ⟨y, hy⟩ := List.exists_mem_of_ne_nil _ h
  rw [flatnonzero_mem_iff] at hy
  obtain ⟨hylen, hyval⟩ := hy
  unfold binaryColumn at hylen hyval
  rw [List.length_map] at hylen
  rw [List.getD_eq_getElem?_getD, List.getElem?_map,
    List.getElem?_eq_getElem hylen] at hyval
  simp only [Option.map_some', Option.getD_some, decide_eq_true_eq] at hyval
  have hx : x < mask[y].length := by
    by_contra hge
    rw [List.getD_eq_default _ _ (by omega)] at hyval
    omega
  rw [List.getD_eq_getElem _ _ hx] at hyval
  unfold hasForeground
  rw [List.any_eq_true]
  exact ⟨mask[y], List.getElem_mem hylen,
    by rw [List.any_eq_true]; exact ⟨mask[y][x], List.getElem_mem hx, by simpa using hyval⟩⟩

/-- On a rectangular mask, a foreground pixel yields a candidate center in
some column (within the image width). -/
theorem centers_of_hasForeground (mask : Mask) (hrect : Rectangular mask)
    (h : hasForeground mask = true) :
    ∃ x < maskWidth mask, columnCenters mask x ≠ [] := by
  unfold hasForeground at h
  rw [List.any_eq_true] at h
  obtain ⟨row, hrow, hv⟩ := h
  rw [List.any_eq_true] at hv
  obtain ⟨v, hvmem, hvpos⟩ := hv
  rw [decide_eq_true_eq] at hvpos
  obtain ⟨j, hj, hjv⟩ := List.getElem_of_mem hvmem
  obtain ⟨i, hi, hirow⟩ := List.getElem_of_mem hrow
  refine ⟨j, by rw [← hrect row hrow]; exact hj, ?_⟩
  rw [columnCenters, extractColumnCenters_ne_nil_iff]
  have hy : i ∈ flatnonzero (binaryColumn mask j) := by
    rw [flatnonzero_mem_iff]
    constructor
    · unfold binaryColumn; rw [List.length_map]; exact hi
    · unfold binaryColumn
      rw [List.getD_eq_getElem?_getD, List.getElem?_map,
        List.getElem?_eq_getElem hi]
      simp only [Option.map_some', Option.getD_some, decide_eq_true_eq]
      rw [hirow, List.getD_eq_getElem _ _ hj, hjv]
      exact hvpos
  exact List.ne_nil_of_mem hy

/-! ## Branch characterisation of `compute_staff_line_paths` -/

theorem tracedCols_last (mask : Mask) (k : Nat) (hw : 0 < maskWidth mask) :
    (phase1 k none (centersByColumn mask)).1.getD (maskWidth mask - 1) none
      = (phase1 k none (centersByColumn mask)).2 := by
  have hlen : (phase1 k none (centersByColumn mask)).1.length = maskWidth mask := by
    rw [phase1_fst_length]
    unfold centersByColumn
    simp
  have hne : centersByColumn mask ≠ [] := by
    unfold centersByColumn
    simp only [ne_eq, List.map_eq_nil_iff, List.range_eq_nil]
    omega
  have hlast := phase1_fst_last k (centersByColumn mask) none hne
  rw [List.getLast?_eq_getElem?, hlen] at hlast
  rw [List.getD_eq_getElem?_getD, hlast]
  rfl

theorem interpRow_isSome (mask : Mask) (k i : Nat)
    (h2 : ((phase1 k none (centersByColumn mask)).2).isSome)
    (hw : 0 < maskWidth mask) :
    (interpRow (maskWidth mask) (phase1 k none (centersByColumn mask)).1 i).isSome := by
  unfold interpRow
  have hmem : (maskWidth mask - 1) ∈ validCols (maskWidth mask)
      (phase1 k none (centersByColumn mask)).1 := by
    rw [validCols, List.mem_filter, List.mem_range]
    exact ⟨by omega, by rw [tracedCols_last mask k hw]; exact h2⟩
  rw [if_neg (by rw [List.isEmpty_iff]; exact List.ne_nil_of_mem hmem)]
  rfl

theorem interpolatedRows_all_isSome (mask : Mask) (k : Nat)
    (h2 : ((phase1 k none (centersByColumn mask)).2).isSome)
    (hw : 0 < maskWidth mask) :
    ∀ r ∈ interpolatedRows mask k, r.isSome := by
  intro r hr
  obtain ⟨i, _, rfl⟩ := List.mem_map.mp hr
  exact interpRow_isSome mask k i h2 hw

theorem compute_maskEmpty_of_no_foreground (mask : Mask) (k sw : Nat)
    (h : hasForeground mask = false) :
    computeStaffLinePaths mask k sw = .error .maskEmpty := by
  simp [computeStaffLinePaths, h]

theorem centersByColumn_any_of_center (mask : Mask) (x : Nat)
    (hx : x < maskWidth mask) (hcx : columnCenters mask x ≠ []) :
    (centersByColumn mask).any (fun c => !c.isEmpty) = true := by
  rw [List.any_eq_true]
  refine ⟨columnCenters mask x, ?_, by simp [hcx]⟩
  unfold centersByColumn
  exact List.mem_map.mpr ⟨x, List.mem_range.mpr hx, rfl⟩

theorem compute_insufficient_of_no_anchor (mask : Mask) (k sw : Nat)
    (hrect : Rectangular mask) (hfg : hasForeground mask = true) (hk : 0 < k)
    (hno : ∀ x < maskWidth mask, (columnCenters mask x).length < k) :
    computeStaffLinePaths mask k sw = .error .insufficientStaffLines := by
  unfold computeStaffLinePaths
  rw [if_neg (by simp [hfg]), if_neg (by omega)]
  obtain ⟨x, hx, hcx⟩ := centers_of_hasForeground mask hrect hfg
  rw [if_neg (by simp [centersByColumn_any_of_center mask x hx hcx])]
  have hnone : (phase1 k none (centersByColumn mask)).2 = none := by
    apply phase1_snd_of_no_anchor
    intro c hc
    unfold centersByColumn at hc
    obtain ⟨x', hx', rfl⟩ := List.mem_map.mp hc
    exact hno x' (List.mem_range.mp hx')
  rw [hnone]

theorem compute_ok_of_anchor (mask : Mask) (k sw : Nat) (hk : 0 < k)
    (ha : ∃ x < maskWidth mask, k ≤ (columnCenters mask x).length) :
    ∃ paths, computeStaffLinePaths mask k sw = .ok paths := by
  obtain ⟨x, hxw, hxk⟩ := ha
  have hcx : columnCenters mask x ≠ [] := by
    intro hnil
    rw [hnil] at hxk
    simp only [List.length_nil, Nat.le_zero] at hxk
    omega
  have hfg := hasForeground_of_centers mask x hcx
  have hmem : columnCenters mask x ∈ centersByColumn mask := by
    unfold centersByColumn
    exact List.mem_map.mpr ⟨x, List.mem_range.mpr hxw, rfl⟩
  have hsome : ((phase1 k none (centersByColumn mask)).2).isSome :=
    phase1_snd_isSome_of_anchor k _ none ⟨_, hmem, hxk⟩
  have hw : 0 < maskWidth mask := by omega
  unfold computeStaffLinePaths
  rw [if_neg (by simp [hfg]), if_neg (by omega),
    if_neg (by simp [centersByColumn_any_of_center mask x hxw hcx])]
  obtain ⟨pv, hpv⟩ := Option.isSome_iff_exists.mp hsome
  rw [hpv]
  have hall := interpolatedRows_all_isSome mask k hsome hw
  have hfalse : (interpolatedRows mask k).any (fun r => r.isNone) = false := by
    rw [List.any_eq_false]
    intro r hr
    have := hall r hr
    simp only [Option.isNone_iff_eq_none]
    intro hc
    rw [hc] at this
    simp at this
  rw [if_neg (by simp [hfalse])]
  split_ifs <;> exact ⟨_, rfl⟩

theorem computeStaffLinePaths_ok_inv (mask : Mask) (k sw : Nat)
    (paths : List (List ℚ)) (h : computeStaffLinePaths mask k sw = .ok paths) :
    k ≠ 0 ∧ (∀ r ∈ interpolatedRows mask k, r.isSome) ∧
      ((paths = ((interpolatedRows mask k).map (fun r => r.getD [])).map
          (fun r => smoothCurve r sw) ∧ 1 < sw)
        ∨ (paths = (interpolatedRows mask k).map (fun r => r.getD []) ∧ ¬ 1 < sw)) := by
  unfold computeStaffLinePaths at h
  by_cases h1 : hasForeground mask = false
  · rw [if_pos h1] at h; exact absurd h (by simp)
  rw [if_neg h1] at h
  by_cases h2 : k = 0
  · rw [if_pos h2] at h; exact absurd h (by simp)
  rw [if_neg h2] at h
  by_cases h3 : (centersByColumn mask).any (fun c => !c.isEmpty) = false
  · rw [if_pos h3] at h; exact absurd h (by simp)
  rw [if_neg h3] at h
  cases hpv : (phase1 k none (centersByColumn mask)).2 with
  | none => rw [hpv] at h; exact absurd h (by simp)
  | some pv =>
      rw [hpv] at h
      simp only at h
      by_cases h4 : (interpolatedRows mask k).any (fun r => r.isNone) = true
      · rw [if_pos h4] at h; exact absurd h (by simp)
      rw [if_neg h4] at h
      refine ⟨h2, ?_, ?_⟩
      · intro r hr
        rw [Bool.not_eq_true, List.any_eq_false] at h4
        have := h4 r hr
        cases r with
        | none => simp at this
        | some v => rfl
      · by_cases h5 : 1 < sw
        · rw [if_pos h5] at h
          exact Or.inl ⟨(Except.ok.inj h).symm, h5⟩
        · rw [if_neg h5] at h
          exact Or.inr ⟨(Except.ok.inj h).symm, h5⟩

theorem interpRow_some_length (w : Nat) (cols : List (Option (List ℤ)))
    (i : Nat) (li : List ℚ) (h : interpRow w cols i = some li) :
    li.length = w := by
  unfold interpRow at h
  by_cases he : (validCols w cols).isEmpty
  · rw [if_pos he] at h
    exact absurd h (by simp)
  · rw [if_neg he] at h
    rw [← Option.some.inj h]
    simp

theorem smoothCurve_length (curve : List ℚ) (window : Nat) :
    (smoothCurve curve window).length = curve.length := by
  unfold smoothCurve
  split_ifs <;> simp

/-- Shape of a successful trace: `expected_lines` rows of `maskWidth` columns
(shared by several claims). -/
theorem computeStaffLinePaths_ok_shape (mask : Mask) (k sw : Nat)
    (paths : List (List ℚ)) (h : computeStaffLinePaths mask k sw = .ok paths) :
    paths.length = k ∧ ∀ row ∈ paths, row.length = maskWidth mask := by
  obtain ⟨_, hsome, hcases⟩ := computeStaffLinePaths_ok_inv mask k sw paths h
  have hlen : (interpolatedRows mask k).length = k := by
    unfold interpolatedRows
    simp
  have hrows : ∀ row ∈ (interpolatedRows mask k).map (fun r => r.getD []),
      row.length = maskWidth mask := by
    intro row hrow
    obtain ⟨r, hr, rfl⟩ := List.mem_map.mp hrow
    obtain ⟨li, hli⟩ := Option.isSome_iff_exists.mp (hsome r hr)
    obtain ⟨i, _, rfl⟩ := List.mem_map.mp hr
    rw [hli]
    simp only [Option.getD_some]
    exact interpRow_some_length _ _ _ _ hli
  rcases hcases with ⟨rfl, _⟩ | ⟨rfl, _⟩
  · refine ⟨by simp [hlen], ?_⟩
    intro row hrow
    obtain ⟨row', hrow', rfl⟩ := List.mem_map.mp hrow
    rw [smoothCurve_length]
    exact hrows row' hrow'
  · exact ⟨by simp [hlen], hrows⟩

/-! ## Claim theorems: tracing failure modes and totality -/

/-- C1: on a 2-D mask (with a positive line count), `compute_staff_line_paths`
fails with `MaskEmpty` when there is no foreground pixel, fails with
`InsufficientStaffLines` when no column yields at least `expected_lines`
candidate centers, and succeeds whenever some column does — no other failure
occurs on such inputs. -/
theorem compute_staff_line_paths_failure_modes (mask : Mask) (k sw : Nat)
    (hrect : Rectangular mask) (hk : 0 < k) :
    (hasForeground mask = false →
        computeStaffLinePaths mask k sw = .error .maskEmpty)
    ∧ (hasForeground mask = true →
        (∀ x < maskWidth mask, (columnCenters mask x).length < k) →
        computeStaffLinePaths mask k sw = .error .insufficientStaffLines)
    ∧ ((∃ x < maskWidth mask, k ≤ (columnCenters mask x).length) →
        ∃ paths, computeStaffLinePaths mask k sw = .ok paths) :=
  ⟨fun h => compute_maskEmpty_of_no_foreground mask k sw h,
   fun hfg hno => compute_insufficient_of_no_anchor mask k sw hrect hfg hk hno,
   fun ha => compute_ok_of_anchor mask k sw hk ha⟩

theorem compute_staff_line_paths_failure_modes_witness :
    computeStaffLinePaths [[0]] 5 9 = .error .maskEmpty
    ∧ computeStaffLinePaths [[1]] 2 9 = .error .insufficientStaffLines
    ∧ ∃ paths, computeStaffLinePaths [[1]] 1 9 = .ok paths :=
  ⟨(compute_staff_line_paths_failure_modes [[0]] 5 9 (by decide) (by decide)).1
     (by decide),
   (compute_staff_line_paths_failure_modes [[1]] 2 9 (by decide) (by decide)).2.1
     (by decide) (by decide),
   (compute_staff_line_paths_failure_modes [[1]] 1 9 (by decide) (by decide)).2.2
     (by decide)⟩

/-- C2: a successful trace yields a total matrix of shape
`expected_lines × image_width` — every column of every line carries a value
(in this exact-arithmetic embedding there is no `NaN`; totality of the matrix
is precisely the absence of undefined entries). -/
theorem compute_staff_line_paths_shape (mask : Mask) (k sw : Nat)
    (paths : List (List ℚ)) (h : computeStaffLinePaths mask k sw = .ok paths) :
    paths.length = k ∧ ∀ row ∈ paths, row.length = maskWidth mask :=
  computeStaffLinePaths_ok_shape mask k sw paths h

theorem compute_staff_line_paths_shape_witness :
    ∃ paths, computeStaffLinePaths [[1]] 1 9 = .ok paths
      ∧ paths.length = 1 ∧ ∀ row ∈ paths, row.length = maskWidth [[1]] := by
  obtain ⟨paths, h⟩ := compute_ok_of_anchor [[1]] 1 9 (by decide) (by decide)
  exact ⟨paths, h, (compute_staff_line_paths_shape [[1]] 1 9 paths h).1,
    (compute_staff_line_paths_shape [[1]] 1 9 paths h).2⟩

/-- C10: the `Unable to trace staff line` branch is unreachable — once the
forward scan anchors (the final `previous` is defined), the last column is
assigned for every line, so every row has a defined column; on every input
whatsoever the function returns a result other than this error. -/
theorem compute_never_unableToTrace (mask : Mask) (k sw : Nat) :
    computeStaffLinePaths mask k sw ≠ .error .unableToTrace := by
  intro h
  unfold computeStaffLinePaths at h
  by_cases h1 : hasForeground mask = false
  · rw [if_pos h1] at h
    exact OmrErr.noConfusion (Except.error.inj h)
  rw [if_neg h1] at h
  by_cases h2 : k = 0
  · rw [if_pos h2] at h
    exact OmrErr.noConfusion (Except.error.inj h)
  rw [if_neg h2] at h
  by_cases h3 : (centersByColumn mask).any (fun c => !c.isEmpty) = false
  · rw [if_pos h3] at h
    exact OmrErr.noConfusion (Except.error.inj h)
  rw [if_neg h3] at h
  cases hpv : (phase1 k none (centersByColumn mask)).2 with
  | none =>
      rw [hpv] at h
      exact OmrErr.noConfusion (Except.error.inj h)
  | some pv =>
      rw [hpv] at h
      simp only at h
      have hw : 0 < maskWidth mask := by
        rw [Bool.not_eq_false, List.any_eq_true] at h3
        obtain ⟨c, hc, _⟩ := h3
        unfold centersByColumn at hc
        obtain ⟨x, hx, rfl⟩ := List.mem_map.mp hc
        have := List.mem_range.mp hx
        omega
      have hall := interpolatedRows_all_isSome mask k (by rw [hpv]; rfl) hw
      have hfalse : (interpolatedRows mask k).any (fun r => r.isNone) = false := by
        rw [List.any_eq_false]
        intro r hr
        have := hall r hr
        simp only [Option.isNone_iff_eq_none]
        intro hc
        rw [hc] at this
        simp at this
      rw [if_neg (by simp [hfalse])] at h
      split_ifs at h

theorem compute_never_unableToTrace_witness :
    computeStaffLinePaths [[1]] 1 9 ≠ .error .unableToTrace :=
  compute_never_unableToTrace [[1]] 1 9

/-! ## Claim theorems: staff reference -/

/-- C3: `compute_staff_reference` fails with `InvalidInput` exactly when fewer
than two lines are provided; otherwise the spacing is the median of all
adjacent-pair per-column absolute gaps and the canonical positions start at
the median of the first row and advance by exactly the spacing; consequently
rectifying a region traced with a single line fails with `InvalidInput`. -/
theorem staff_reference_spec :
    (∀ line_paths : List (List ℚ),
        computeStaffReference line_paths = .error .invalidInput ↔
          line_paths.length < 2)
    ∧ (∀ line_paths : List (List ℚ), 2 ≤ line_paths.length →
        ∃ ref, computeStaffReference line_paths = .ok ref
          ∧ ref.line_spacing = npMedian (spacingSamples line_paths)
          ∧ ref.canonical_positions.length = line_paths.length
          ∧ ∀ i < line_paths.length,
              ref.canonical_positions.getD i 0 =
                npMedian (line_paths.getD 0 []) + (i : ℚ) * ref.line_spacing)
    ∧ (∀ (mask : Mask) (sw : Nat),
        (∃ paths, computeStaffLinePaths mask 1 sw = .ok paths) →
          rectifyStaffRegionRef mask 1 sw = .error .invalidInput) := by
  refine ⟨?_, ?_, ?_⟩
  · intro line_paths
    unfold computeStaffReference
    split_ifs with h
    · simp [h]
    · simp [h]
  · intro line_paths hlen
    refine ⟨⟨(List.range line_paths.length).map
        (fun i : Nat => npMedian (line_paths.getD 0 []) +
          (i : ℚ) * npMedian (spacingSamples line_paths)),
        npMedian (spacingSamples line_paths)⟩, ?_, rfl, by simp, ?_⟩
    · unfold computeStaffReference
      rw [if_neg (by omega)]
    · intro i hi
      exact getD_map_range _ _ _ _ hi
  · intro mask sw ⟨paths, h⟩
    have hlen := (computeStaffLinePaths_ok_shape mask 1 sw paths h).1
    unfold rectifyStaffRegionRef
    rw [h]
    show computeStaffReference paths = Except.error OmrErr.invalidInput
    unfold computeStaffReference
    rw [if_pos (by omega)]

theorem staff_reference_spec_witness :
    (computeStaffReference [[(0 : ℚ)]] = .error .invalidInput ↔
        ([[(0 : ℚ)]] : List (List ℚ)).length < 2)
    ∧ (∃ ref, computeStaffReference [[(0 : ℚ), 2], [6, 8]] = .ok ref
        ∧ ref.line_spacing = npMedian (spacingSamples [[(0 : ℚ), 2], [6, 8]])
        ∧ ref.canonical_positions.length = ([[(0 : ℚ), 2], [6, 8]] : List (List ℚ)).length
        ∧ ∀ i < ([[(0 : ℚ), 2], [6, 8]] : List (List ℚ)).length,
            ref.canonical_positions.getD i 0 =
              npMedian ([[(0 : ℚ), 2], [6, 8]].getD 0 []) +
                (i : ℚ) * ref.line_spacing)
    ∧ rectifyStaffRegionRef [[1]] 1 9 = .error .invalidInput := by
  refine ⟨staff_reference_spec.1 [[(0 : ℚ)]],
    staff_reference_spec.2.1 [[(0 : ℚ), 2], [6, 8]] (by norm_num), ?_⟩
  obtain ⟨paths, h⟩ := compute_ok_of_anchor [[1]] 1 9 (by decide) (by decide)
  exact staff_reference_spec.2.2 [[1]] 9 ⟨paths, h⟩

/-- C4 counterexample: the matrix `[[0], [0]]` has two lines and is accepted by
`compute_staff_reference`, yet the returned reference has `line_spacing = 0`
(and canonical positions that do not strictly increase) — the claimed
invariant fails for arbitrary accepted inputs. -/
theorem staff_reference_zero_spacing_cex :
    computeStaffReference [[(0 : ℚ)], [0]] =
        .ok { canonical_positions := [0, 0], line_spacing := 0 }
    ∧ ¬ (0 < ({ canonical_positions := [0, 0], line_spacing := 0 } :
          StaffReference).line_spacing) := by
  constructor
  · norm_num [computeStaffReference, npMedian, spacingSamples,
      List.insertionSort, List.orderedInsert, List.range_succ]
  · norm_num

theorem zipWith_absgap_pos :
    ∀ {a b : List ℚ}, List.Forall₂ (· < ·) a b →
      ∀ q ∈ List.zipWith (fun x y => |y - x|) a b, 0 < q := by
  intro a b h
  induction h with
  | nil => simp
  | @cons x y a' b' hxy _ ih =>
      intro q hq
      rcases List.mem_cons.mp hq with rfl | hq
      · rw [abs_pos]
        intro hc
        rw [sub_eq_zero] at hc
        exact (ne_of_gt hxy) hc
      · exact ih q hq

theorem npMedian_pos (l : List ℚ) (hne : l ≠ []) (hpos : ∀ q ∈ l, 0 < q) :
    0 < npMedian l := by
  unfold npMedian
  have hlen : 0 < l.length := List.length_pos.mpr hne
  have hslen : (List.insertionSort (· ≤ ·) l).length = l.length :=
    List.length_insertionSort _ l
  have hmem : ∀ i, i < l.length → 0 < (List.insertionSort (· ≤ ·) l).getD i 0 := by
    intro i hi
    have hi' : i < (List.insertionSort (· ≤ ·) l).length := by omega
    rw [List.getD_eq_getElem _ _ hi']
    exact hpos _ ((List.perm_insertionSort (· ≤ ·) l).mem_iff.mp
      (List.getElem_mem hi'))
  rw [if_neg (by omega)]
  split_ifs with hodd
  · exact hmem _ (by omega)
  · have h1 := hmem (l.length / 2 - 1) (by omega)
    have h2 := hmem (l.length / 2) (by omega)
    linarith

/-- C4 (amended): for every accepted line-paths matrix whose adjacent rows are
pointwise strictly separated (as traced curves are) and that has at least one
column, the reference satisfies `line_spacing > 0` and its canonical positions
strictly increase by exactly `line_spacing`. -/
theorem staff_reference_positive_spacing (paths : List (List ℚ))
    (ref : StaffReference) (h : computeStaffReference paths = .ok ref)
    (hw : 0 < (paths.getD 0 []).length)
    (hs : ∀ i, i + 1 < paths.length →
      List.Forall₂ (· < ·) (paths.getD i []) (paths.getD (i + 1) [])) :
    0 < ref.line_spacing
    ∧ ref.canonical_positions.length = paths.length
    ∧ ∀ i, i + 1 < paths.length →
        ref.canonical_positions.getD i 0 + ref.line_spacing =
            ref.canonical_positions.getD (i + 1) 0
          ∧ ref.canonical_positions.getD i 0 <
              ref.canonical_positions.getD (i + 1) 0 := by
  have hn : ¬ paths.length < 2 := by
    intro hc
    unfold computeStaffReference at h
    rw [if_pos hc] at h
    exact absurd h (by simp)
  unfold computeStaffReference at h
  rw [if_neg hn] at h
  have href := (Except.ok.inj h).symm
  have hspos : 0 < npMedian (spacingSamples paths) := by
    apply npMedian_pos
    · have h01 := hs 0 (by omega)
      have hrow1 : (paths.getD 0 []).length = (paths.getD 1 []).length :=
        List.Forall₂.length_eq h01
      have hzip : List.zipWith (fun a b => |b - a|)
          (paths.getD 0 []) (paths.getD 1 []) ≠ [] := by
        rw [ne_eq, List.zipWith_eq_nil_iff]
        push_neg
        constructor <;> [exact List.length_pos.mp hw;
          exact List.length_pos.mp (by omega)]
      obtain ⟨q, hq⟩ := List.exists_mem_of_ne_nil _ hzip
      intro hc
      rw [spacingSamples] at hc
      have : q ∈ (List.range (paths.length - 1)).flatMap
          (fun idx => List.zipWith (fun a b => |b - a|)
            (paths.getD idx []) (paths.getD (idx + 1) [])) := by
        rw [List.mem_flatMap]
        exact ⟨0, List.mem_range.mpr (by omega), hq⟩
      rw [hc] at this
      exact absurd this (List.not_mem_nil q)
    · intro q hq
      rw [spacingSamples, List.mem_flatMap] at hq
      obtain ⟨idx, hidx, hq⟩ := hq
      exact zipWith_absgap_pos (hs idx (by
        have := List.mem_range.mp hidx; omega)) q hq
  refine ⟨?_, ?_, ?_⟩
  · rw [href]
    exact hspos
  · rw [href]
    simp
  · intro i hi
    rw [href]
    simp only
    rw [getD_map_range _ _ _ _ (by omega), getD_map_range _ _ _ _ (by omega)]
    constructor
    · push_cast
      ring
    · have : (i : ℚ) * npMedian (spacingSamples paths) <
          ((i : ℚ) + 1) * npMedian (spacingSamples paths) := by
        nlinarith
      push_cast
      linarith

theorem staff_reference_positive_spacing_witness :
    0 < ({ canonical_positions := [0, 1], line_spacing := 1 } :
        StaffReference).line_spacing
    ∧ ({ canonical_positions := [0, 1], line_spacing := 1 } :
        StaffReference).canonical_positions.length =
          ([[(0 : ℚ)], [1]] : List (List ℚ)).length
    ∧ ∀ i, i + 1 < ([[(0 : ℚ)], [1]] : List (List ℚ)).length →
        ({ canonical_positions := [0, 1], line_spacing := 1 } :
            StaffReference).canonical_positions.getD i 0 +
            ({ canonical_positions := [0, 1], line_spacing := 1 } :
              StaffReference).line_spacing =
          ({ canonical_positions := [0, 1], line_spacing := 1 } :
            StaffReference).canonical_positions.getD (i + 1) 0
        ∧ ({ canonical_positions := [0, 1], line_spacing := 1 } :
            StaffReference).canonical_positions.getD i 0 <
            ({ canonical_positions := [0, 1], line_spacing := 1 } :
              StaffReference).canonical_positions.getD (i + 1) 0 := by
  have h : computeStaffReference [[(0 : ℚ)], [1]] =
      .ok { canonical_positions := [0, 1], line_spacing := 1 } := by
    norm_num [computeStaffReference, npMedian, spacingSamples,
      List.insertionSort, List.orderedInsert, List.range_succ]
  refine staff_reference_positive_spacing [[(0 : ℚ)], [1]] _ h (by norm_num) ?_
  intro i hi
  have hi0 : i = 0 := by simp at hi; omega
  subst hi0
  simp only [List.getD]
  exact List.Forall₂.cons (by norm_num) List.Forall₂.nil

/-! ## Order preservation through interpolation and smoothing -/

theorem getD_le_of_forall₂ :
    ∀ {a b : List ℚ}, List.Forall₂ (· ≤ ·) a b →
      ∀ m : Nat, a.getD m 0 ≤ b.getD m 0 := by
  intro a b h
  induction h with
  | nil => intro m; simp
  | cons h1 _ ih =>
      intro m
      cases m with
      | zero => simpa using h1
      | succ m' => simpa using ih m'

theorem SortedK_getD_le (k : Nat) (b : List ℤ) (h : SortedK k b) (i : Nat)
    (hi : i + 1 < k) : b.getD i 0 ≤ b.getD (i + 1) 0 := by
  obtain ⟨hsort, hlen⟩ := h
  have hi1 : i + 1 < b.length := by omega
  have hi0 : i < b.length := by omega
  rw [List.getD_eq_getElem _ _ hi0, List.getD_eq_getElem _ _ hi1]
  exact @List.Sorted.rel_get_of_lt _ _ _ hsort ⟨i, hi0⟩ ⟨i + 1, hi1⟩ (by simp)

theorem forall₂_map_same {α : Type _} (l : List α) (f g : α → ℚ)
    (h : ∀ a ∈ l, f a ≤ g a) :
    List.Forall₂ (· ≤ ·) (l.map f) (l.map g) := by
  induction l with
  | nil => simp
  | cons x xs ih =>
      exact List.Forall₂.cons (h x (List.mem_cons_self x xs))
        (ih (fun a ha => h a (List.mem_cons_of_mem x ha)))

theorem interpGo_mono :
    ∀ (xps fps gps : List ℚ) (x x0 f0 g0 : ℚ), x0 < x → f0 ≤ g0 →
      List.Forall₂ (· ≤ ·) fps gps →
      interpGo x x0 f0 xps fps ≤ interpGo x x0 g0 xps gps := by
  intro xps
  induction xps with
  | nil =>
      intro fps gps x x0 f0 g0 _ hf _
      simp [interpGo, hf]
  | cons x1 xps ih =>
      intro fps gps x x0 f0 g0 hx hf hfg
      cases hfg with
      | nil => simp [interpGo, hf]
      | @cons f1 g1 fps' gps' hfg1 hrest =>
          unfold interpGo
          split_ifs with hle
          · have hd : 0 < x1 - x0 := by linarith
            have hr0 : 0 ≤ (x - x0) / (x1 - x0) := div_nonneg (by linarith) hd.le
            have hr1 : (x - x0) / (x1 - x0) ≤ 1 := (div_le_one hd).mpr (by linarith)
            have e1 : (x - x0) * (f1 - f0) / (x1 - x0) =
                (x - x0) / (x1 - x0) * (f1 - f0) := by ring
            have e2 : (x - x0) * (g1 - g0) / (x1 - x0) =
                (x - x0) / (x1 - x0) * (g1 - g0) := by ring
            rw [e1, e2]
            nlinarith [mul_nonneg (sub_nonneg.mpr hr1) (sub_nonneg.mpr hf),
              mul_nonneg hr0 (sub_nonneg.mpr hfg1)]
          · exact ih fps' gps' x x1 f1 g1 (by linarith [not_le.mp hle]) hfg1 hrest

theorem npInterp_mono (x : ℚ) (xp : List ℚ) {fp gp : List ℚ}
    (h : List.Forall₂ (· ≤ ·) fp gp) :
    npInterp x xp fp ≤ npInterp x xp gp := by
  cases xp with
  | nil => simp [npInterp]
  | cons x0 xps =>
      cases h with
      | nil => simp [npInterp]
      | @cons f0 g0 fps gps h0 hrest =>
          simp only [npInterp]
          split_ifs with hle
          · exact h0
          · exact interpGo_mono xps fps gps x x0 f0 g0 (not_le.mp hle) h0 hrest

theorem getD_mem_of_isSome {α : Type _} (l : List (Option α)) (v : Nat)
    (h : (l.getD v none).isSome) : l.getD v none ∈ l := by
  by_cases hv : v < l.length
  · rw [List.getD_eq_getElem _ _ hv]
    exact List.getElem_mem hv
  · rw [List.getD_eq_default _ _ (by omega)] at h
    simp at h

theorem interpRow_mono (w : Nat) (cols : List (Option (List ℤ))) (k i : Nat)
    (hQ : ∀ o ∈ cols, ∀ b, o = some b → SortedK k b)
    (hik : i + 1 < k) (li l1 : List ℚ)
    (hi : interpRow w cols i = some li)
    (hi1 : interpRow w cols (i + 1) = some l1) :
    List.Forall₂ (· ≤ ·) li l1 := by
  unfold interpRow at hi hi1
  by_cases he : (validCols w cols).isEmpty
  · rw [if_pos he] at hi
    exact absurd hi (by simp)
  · rw [if_neg he] at hi hi1
    rw [← Option.some.inj hi, ← Option.some.inj hi1]
    apply forall₂_map_same
    intro x _
    apply npInterp_mono
    unfold validVals
    apply forall₂_map_same
    intro v hv
    have hvs : ((cols.getD v none).isSome) := by
      rw [validCols, List.mem_filter] at hv
      exact hv.2
    obtain ⟨b, hb⟩ := Option.isSome_iff_exists.mp hvs
    have hQb : SortedK k b := hQ _ (getD_mem_of_isSome cols v (by rw [hb]; rfl)) b hb
    rw [hb]
    simp only [Option.getD_some]
    exact_mod_cast SortedK_getD_le k b hQb i hik

theorem smoothCurve_mono (a b : List ℚ) (window : Nat)
    (h : List.Forall₂ (· ≤ ·) a b) :
    List.Forall₂ (· ≤ ·) (smoothCurve a window) (smoothCurve b window) := by
  have hlen : a.length = b.length := h.length_eq
  unfold smoothCurve
  by_cases hw : window ≤ 1
  · rw [if_pos hw, if_pos hw]
    exact h
  · rw [if_neg hw, if_neg hw]
    dsimp only
    rw [← hlen]
    have hw' : 1 ≤ window - (if window % 2 = 0 then 1 else 0) := by
      split_ifs <;> omega
    revert hw'
    generalize (window - (if window % 2 = 0 then 1 else 0)) = w'
    intro hw'
    apply forall₂_map_same
    intro j _
    have hwpos : (0 : ℚ) < (w' : ℚ) := by exact_mod_cast hw'
    rw [div_le_div_iff_of_pos_right hwpos]
    apply List.sum_le_sum
    intro t _
    exact getD_le_of_forall₂ h _

/-! ## Claim theorem: traced curves never cross -/

theorem interpolatedRows_length (mask : Mask) (k : Nat) :
    (interpolatedRows mask k).length = k := by
  unfold interpolatedRows
  simp

theorem getD_map_of_lt {α β : Type _} (l : List α) (f : α → β) (i : Nat)
    (d : β) (d' : α) (hi : i < l.length) :
    (l.map f).getD i d = f (l.getD i d') := by
  rw [List.getD_eq_getElem _ _ (by simpa using hi), List.getElem_map,
    List.getD_eq_getElem _ _ hi]

/-- C9: on every successful trace, adjacent line curves never cross — at every
column the position of line `i` is at most that of line `i + 1` (each chosen
combination is kept sorted, propagation copies a sorted vector, interpolation
over the shared defined-column grid preserves pointwise order, and the moving
average preserves it as well). -/
theorem compute_staff_line_paths_no_crossing (mask : Mask) (k sw : Nat)
    (paths : List (List ℚ)) (h : computeStaffLinePaths mask k sw = .ok paths)
    (i : Nat) (hi : i + 1 < paths.length) (x : Nat) :
    (paths.getD i []).getD x 0 ≤ (paths.getD (i + 1) []).getD x 0 := by
  obtain ⟨hk, hsome, hcases⟩ := computeStaffLinePaths_ok_inv mask k sw paths h
  have hklen : paths.length = k :=
    (computeStaffLinePaths_ok_shape mask k sw paths h).1
  have hik : i + 1 < k := by omega
  have hQ : ∀ o ∈ (phase1 k none (centersByColumn mask)).1, ∀ b, o = some b →
      SortedK k b :=
    (phase1_inv_SortedK k (centersByColumn mask) none (by simp)).1
  have hmemi : interpRow (maskWidth mask)
      (phase1 k none (centersByColumn mask)).1 i ∈ interpolatedRows mask k := by
    unfold interpolatedRows
    exact List.mem_map.mpr ⟨i, List.mem_range.mpr (by omega), rfl⟩
  have hmemi1 : interpRow (maskWidth mask)
      (phase1 k none (centersByColumn mask)).1 (i + 1) ∈
        interpolatedRows mask k := by
    unfold interpolatedRows
    exact List.mem_map.mpr ⟨i + 1, List.mem_range.mpr (by omega), rfl⟩
  obtain ⟨li, hli⟩ := Option.isSome_iff_exists.mp (hsome _ hmemi)
  obtain ⟨l1, hl1⟩ := Option.isSome_iff_exists.mp (hsome _ hmemi1)
  have hmono : List.Forall₂ (· ≤ ·) li l1 :=
    interpRow_mono (maskWidth mask) (phase1 k none (centersByColumn mask)).1
      k i hQ hik li l1 hli hl1
  have hrowsi : ((interpolatedRows mask k).map (fun r => r.getD [])).getD i [] = li := by
    rw [getD_map_of_lt _ _ i [] none (by rw [interpolatedRows_length]; omega)]
    unfold interpolatedRows
    rw [getD_map_range _ _ _ _ (by omega), hli]
    rfl
  have hrowsi1 : ((interpolatedRows mask k).map (fun r => r.getD [])).getD
      (i + 1) [] = l1 := by
    rw [getD_map_of_lt _ _ (i + 1) [] none (by rw [interpolatedRows_length]; omega)]
    unfold interpolatedRows
    rw [getD_map_range _ _ _ _ (by omega), hl1]
    rfl
  rcases hcases with ⟨rfl, _⟩ | ⟨rfl, _⟩
  · have hlen2 : ((interpolatedRows mask k).map (fun r => r.getD [])).length = k := by
      rw [List.length_map, interpolatedRows_length]
    rw [getD_map_of_lt _ _ i [] [] (by omega), getD_map_of_lt _ _ (i + 1) [] []
      (by omega), hrowsi, hrowsi1]
    exact getD_le_of_forall₂ (smoothCurve_mono li l1 sw hmono) x
  · rw [hrowsi, hrowsi1]
    exact getD_le_of_forall₂ hmono x

theorem compute_staff_line_paths_no_crossing_witness :
    ∃ paths, computeStaffLinePaths [[1], [0], [1]] 2 1 = .ok paths
      ∧ (paths.getD 0 []).getD 0 0 ≤ (paths.getD 1 []).getD 0 0 := by
  obtain ⟨paths, h⟩ := compute_ok_of_anchor [[1], [0], [1]] 2 1
    (by decide) (by decide)
  have hlen := (computeStaffLinePaths_ok_shape _ _ _ _ h).1
  exact ⟨paths, h,
    compute_staff_line_paths_no_crossing _ _ _ _ h 0 (by omega) 0⟩

end MusicScanner
